import Mathlib

/-
Verification development for the relation-mapping controller example
(`src/ctrl/relations.rs`): a controller over Deployments that also watches
HorizontalPodAutoscalers and maps their changes back to Deployment
reconcile requests through `scaleTargetRef`, together with a model of the
work-queue discipline described by the accompanying specification.
-/

namespace Ctrl

/-- Reduced Kubernetes object metadata: only the fields the program reads
(name, generate-name, and the object namespace, named `nspace` here since
`namespace` is a reserved word in Lean). -/
structure ObjectMeta where
  name : Option String
  generate_name : Option String
  nspace : Option String
deriving DecidableEq

/-- Cross-version object reference from the autoscaling v2 API:
`scaleTargetRef` carries an optional apiVersion plus a kind and a name. -/
structure CrossVersionObjectReference where
  api_version : Option String
  kind : String
  name : String
deriving DecidableEq

/-- Autoscaler spec. The program only reads `scale_target_ref`; the other
fields of the Rust type are elided as unread, with `max_replicas` kept as a
representative payload field. -/
structure HorizontalPodAutoscalerSpec where
  scale_target_ref : CrossVersionObjectReference
  max_replicas : Int
deriving DecidableEq

/-- A HorizontalPodAutoscaler object: metadata plus an optional spec. -/
structure HorizontalPodAutoscaler where
  metadata : ObjectMeta
  spec : Option HorizontalPodAutoscalerSpec
deriving DecidableEq

/-- Deployment spec, reduced to a representative field (unread by the
program). -/
structure DeploymentSpec where
  replicas : Option Int
deriving DecidableEq

/-- A Deployment object: metadata plus an optional spec. -/
structure Deployment where
  metadata : ObjectMeta
  spec : Option DeploymentSpec
deriving DecidableEq

/-- Typed reference to a Deployment, as produced by the reflector's
`ObjectRef` for `k8s_openapi` Deployments: a name plus an optional
namespace. -/
structure ObjectRef where
  name : String
  nspace : Option String
deriving DecidableEq

/-- Constructor `ObjectRef::new_with(name, dyntype)`: sets the name and
leaves the namespace unset. The dynamic type for a static resource is
`()`. -/
def ObjectRef.new_with (name : String) (_dyntype : Unit) : ObjectRef :=
  { name := name, nspace := none }

/-- The error enum of `src/ctrl/relations.rs`: it has no variants. -/
inductive Error

/-- Rust `Result<T, E = Error>`. -/
abbrev Result (T : Type) (E : Type := Error) : Type := Except E T

/-- Rust `std::time::Duration` as whole seconds plus nanoseconds. -/
structure Duration where
  secs : Nat
  nanos : Nat
deriving DecidableEq

/-- `Duration::from_secs`. -/
def Duration.from_secs (n : Nat) : Duration :=
  { secs := n, nanos := 0 }

/-- Controller action: requeue after a duration, or await further change
events. -/
inductive Action where
  | requeue (d : Duration)
  | await_change
deriving DecidableEq

/-- The relation mapper closure from `main`: maps an HPA change to at most
one Deployment reference through `scaleTargetRef`, keeping only references
whose declared kind is "Deployment". Rust's `Option::flatten` is
`Option.join`. -/
def mapper (obj : HorizontalPodAutoscaler) : Option ObjectRef :=
  (obj.spec.map (fun hspec =>
    let crossref := hspec.scale_target_ref
    if crossref.kind = "Deployment" then
      some (ObjectRef.new_with crossref.name ())
    else
      none)).join

/-- Rust `ResourceExt::name_any`: the metadata name, falling back to the
generate-name, then the empty string. -/
def Deployment.name_any (d : Deployment) : String :=
  d.metadata.name.getD (d.metadata.generate_name.getD "")

/-- The reconcile function: prints one log line and requeues after 3600
seconds. The first component models the log output, the second the
returned result. -/
def reconcile (obj : Deployment) (_ctx : Unit) : String × Result Action :=
  ("reconcile request: " ++ obj.name_any,
   Except.ok (Action.requeue (Duration.from_secs 3600)))

/-- The error policy: always requeue after five seconds. -/
def error_policy (_obj : Deployment) (_error : Error) (_ctx : Unit) : Action :=
  Action.requeue (Duration.from_secs 5)

/-- Concrete HPA in namespace "prod" targeting Deployment "web". -/
def hpaProd : HorizontalPodAutoscaler :=
  { metadata := { name := some "web-hpa", generate_name := none, nspace := some "prod" }
    spec := some
      { scale_target_ref := { api_version := some "apps/v1", kind := "Deployment", name := "web" }
        max_replicas := 10 } }

/-- Concrete HPA without a spec. -/
def hpaNoSpec : HorizontalPodAutoscaler :=
  { metadata := { name := some "empty-hpa", generate_name := none, nspace := some "prod" }
    spec := none }

/-- Concrete HPA targeting a StatefulSet instead of a Deployment. -/
def hpaStateful : HorizontalPodAutoscaler :=
  { metadata := { name := some "ss-hpa", generate_name := none, nspace := some "prod" }
    spec := some
      { scale_target_ref := { api_version := some "apps/v1", kind := "StatefulSet", name := "db" }
        max_replicas := 3 } }

/-- Modelled from the spec: the work queue and its per-key in-flight and
dirty discipline are implemented by the kube runtime scheduler, which is a
dependency and not part of this repository's source, so the queue is
modelled from the specification. `ObjectKey` is the spec's identity type:
kind, namespace (`nspace`, a string that may be empty) and name. -/
structure ObjectKey where
  kind : String
  nspace : String
  name : String
deriving DecidableEq

/-- Modelled from the spec: work-queue state — the live entries (each a
key with its `not_before` timestamp, kept in insertion order), the set of
in-flight keys, and the set of keys whose dirty flag is set because they
were re-added while in flight. -/
structure WQState where
  entries : List (ObjectKey × Nat)
  inflight : List ObjectKey
  dirty : List ObjectKey
deriving DecidableEq

/-- The empty work queue. -/
def WQState.empty : WQState := ⟨[], [], []⟩

/-- Merge an enqueue of key `k` at time `t` into the entry list: an
existing entry for `k` keeps its position and takes the earlier of the two
times; otherwise a fresh entry is appended at the back. -/
def addAfterEntry (k : ObjectKey) (t : Nat) :
    List (ObjectKey × Nat) → List (ObjectKey × Nat)
  | [] => [(k, t)]
  | e :: es => if e.1 = k then (k, min e.2 t) :: es else e :: addAfterEntry k t es

/-- Modelled from the spec: `AddAfter(key, duration)` enqueues with
`not_before = now + duration`. While `key` is in flight it only records
the dirty flag; otherwise it merges into the entry list, the earlier
`not_before` winning. -/
def WQState.addAfter (s : WQState) (now : Nat) (k : ObjectKey) (d : Nat) : WQState :=
  if k ∈ s.inflight then
    { s with dirty := if k ∈ s.dirty then s.dirty else s.dirty ++ [k] }
  else
    { s with entries := addAfterEntry k (now + d) s.entries }

/-- Modelled from the spec: `Add(key)` enqueues with `not_before = now`. -/
def WQState.add (s : WQState) (now : Nat) (k : ObjectKey) : WQState :=
  s.addAfter now k 0

/-- Entries eligible at `now`: `not_before ≤ now` and key not in flight. -/
def dueEntries (s : WQState) (now : Nat) : List (ObjectKey × Nat) :=
  s.entries.filter (fun e => decide (e.2 ≤ now) && !decide (e.1 ∈ s.inflight))

/-- Earliest entry by `not_before`; ties are resolved towards the front of
the list, i.e. insertion order. -/
def pickEarliest : List (ObjectKey × Nat) → Option (ObjectKey × Nat)
  | [] => none
  | e :: es =>
    match pickEarliest es with
    | none => some e
    | some b => if b.2 < e.2 then some b else some e

/-- Modelled from the spec: `Get()` pops the earliest due, non-in-flight
key, removes its entry and marks it in flight; it yields `none` when
nothing is due. -/
def WQState.get (s : WQState) (now : Nat) : Option ObjectKey × WQState :=
  match pickEarliest (dueEntries s now) with
  | none => (none, s)
  | some e =>
    (some e.1,
     ⟨s.entries.filter (fun x => decide (x.1 ≠ e.1)), e.1 :: s.inflight, s.dirty⟩)

/-- Modelled from the spec: `Done(key)` clears the in-flight marker and,
when the dirty flag was set while the key was in flight, immediately
re-adds the key with `not_before = now`. -/
def WQState.done (s : WQState) (now : Nat) (k : ObjectKey) : WQState :=
  let flight := s.inflight.filter (fun x => decide (x ≠ k))
  if k ∈ s.dirty then
    WQState.addAfter ⟨s.entries, flight, s.dirty.filter (fun x => decide (x ≠ k))⟩ now k 0
  else
    ⟨s.entries, flight, s.dirty⟩

/-- One work-queue operation of a client trace. -/
inductive WQOp where
  | add (now : Nat) (k : ObjectKey)
  | addAfter (now : Nat) (k : ObjectKey) (d : Nat)
  | get (now : Nat)
  | done (now : Nat) (k : ObjectKey)
deriving DecidableEq

/-- Apply one operation to the queue state. -/
def WQState.step (s : WQState) : WQOp → WQState
  | .add now k => s.add now k
  | .addAfter now k d => s.addAfter now k d
  | .get now => (s.get now).2
  | .done now k => s.done now k

/-- The key an operation delivers to its caller, when it is a `Get()` that
pops one. -/
def delivered (s : WQState) : WQOp → Option ObjectKey
  | .get now => (s.get now).1
  | _ => none

/-- Run a trace of operations. -/
def WQState.run (s : WQState) : List WQOp → WQState
  | [] => s
  | op :: ops => (s.step op).run ops

/-- All keys delivered to `Get()` callers along a trace. -/
def deliveries (s : WQState) : List WQOp → List ObjectKey
  | [] => []
  | op :: ops => (delivered s op).toList ++ deliveries (s.step op) ops

/-- States reachable from the empty queue by some trace. -/
def Reachable (s : WQState) : Prop :=
  ∃ ops : List WQOp, WQState.run WQState.empty ops = s

/-- Whether an operation is a `Done` for key `k`. -/
def WQOp.isDoneFor : WQOp → ObjectKey → Bool
  | .done _ k2, k => decide (k2 = k)
  | _, _ => false

/-- Whether an operation is an `Add` or `AddAfter` for key `k`. -/
def WQOp.isAddFor : WQOp → ObjectKey → Bool
  | .add _ k2, k => decide (k2 = k)
  | .addAfter _ k2 _, k => decide (k2 = k)
  | _, _ => false

/-- The `not_before` time recorded for `k` in an entry list. -/
def findNB (k : ObjectKey) (es : List (ObjectKey × Nat)) : Option Nat :=
  (es.find? (fun e => decide (e.1 = k))).map Prod.snd

/-- The `not_before` time recorded for `k` in the queue. -/
def lookupNB (s : WQState) (k : ObjectKey) : Option Nat :=
  findNB k s.entries

/-- Number of live entries for `k` in an entry list. -/
def countKey (k : ObjectKey) (es : List (ObjectKey × Nat)) : Nat :=
  es.countP (fun e => decide (e.1 = k))

/-- One when the dirty flag of `k` is set, zero otherwise. -/
def dirtyBit (k : ObjectKey) (s : WQState) : Nat :=
  if k ∈ s.dirty then 1 else 0

/-- Pending-work potential of key `k`: live entries plus dirty flag. -/
def phiKey (k : ObjectKey) (s : WQState) : Nat :=
  countKey k s.entries + dirtyBit k s

/-- Structural invariant of the work queue: entry keys are distinct, the
in-flight list is duplicate-free, dirty keys are in flight, and in-flight
keys have no live entry. -/
structure WQInv (s : WQState) : Prop where
  nodupKeys : (s.entries.map Prod.fst).Nodup
  flightNodup : s.inflight.Nodup
  dirtyFlight : ∀ k ∈ s.dirty, k ∈ s.inflight
  flightEntries : ∀ k ∈ s.inflight, countKey k s.entries = 0

/-- Concrete keys for witnesses. -/
def kA : ObjectKey := ⟨"Deployment", "default", "nginx"⟩

/-- A second concrete key. -/
def kB : ObjectKey := ⟨"Deployment", "default", "redis"⟩

/-- A copy of `hpaProd` with different metadata but the same spec. -/
def hpaProdRenamed : HorizontalPodAutoscaler :=
  { metadata := { name := some "a", generate_name := none, nspace := some "ns1" }
    spec := hpaProd.spec }

/-- Merging a key already present leaves the key list unchanged. -/
lemma addAfterEntry_map_fst_of_mem (k : ObjectKey) (t : Nat) :
    ∀ es : List (ObjectKey × Nat), k ∈ es.map Prod.fst →
      (addAfterEntry k t es).map Prod.fst = es.map Prod.fst := by
  intro es
  induction es with
  | nil => intro h; simp at h
  | cons e es ih =>
    intro h
    by_cases hek : e.1 = k
    · simp [addAfterEntry, hek]
    · rw [List.map_cons] at h
      have h' : k ∈ es.map Prod.fst := by
        rcases List.mem_cons.mp h with h1 | h1
        · exact absurd h1.symm hek
        · exact h1
      simp [addAfterEntry, hek, ih h']

/-- Merging an absent key appends its entry at the back. -/
lemma addAfterEntry_of_not_mem (k : ObjectKey) (t : Nat) :
    ∀ es : List (ObjectKey × Nat), k ∉ es.map Prod.fst →
      addAfterEntry k t es = es ++ [(k, t)] := by
  intro es
  induction es with
  | nil => intro _; rfl
  | cons e es ih =>
    intro h
    by_cases hek : e.1 = k
    · exact absurd (by simp [← hek]) h
    · have h' : k ∉ es.map Prod.fst := fun hmem => h (by simp [hmem])
      simp [addAfterEntry, hek, ih h']

/-- A key has no recorded time exactly when it has no entry. -/
lemma findNB_eq_none {k : ObjectKey} {es : List (ObjectKey × Nat)} :
    findNB k es = none ↔ k ∉ es.map Prod.fst := by
  simp only [findNB, Option.map_eq_none', List.find?_eq_none, decide_eq_true_eq,
    List.mem_map, not_exists]
  constructor
  · intro h a hc
    exact h a hc.1 hc.2
  · intro h a ha hk
    exact h a ⟨ha, hk⟩

/-- A key with a recorded time has an entry. -/
lemma findNB_some_mem {k : ObjectKey} {es : List (ObjectKey × Nat)} {t : Nat}
    (h : findNB k es = some t) : k ∈ es.map Prod.fst := by
  rw [findNB] at h
  cases hf : es.find? (fun e => decide (e.1 = k)) with
  | none => rw [hf] at h; simp at h
  | some e =>
    have he := List.mem_of_find?_eq_some hf
    have hp := List.find?_some hf
    simp at hp
    exact List.mem_map.mpr ⟨e, he, hp⟩

/-- Enqueueing an absent key records exactly the requested time. -/
lemma findNB_addAfterEntry_none {k : ObjectKey} (t : Nat) :
    ∀ es : List (ObjectKey × Nat), findNB k es = none →
      findNB k (addAfterEntry k t es) = some t := by
  intro es h
  rw [addAfterEntry_of_not_mem k t es (findNB_eq_none.mp h)]
  rw [findNB_eq_none] at h
  induction es with
  | nil => simp [findNB]
  | cons e es ih =>
    have hek : ¬ e.1 = k := fun hk => h (by simp [hk])
    have h' : k ∉ es.map Prod.fst := fun hmem => h (by simp [hmem])
    rw [List.cons_append, findNB, List.find?_cons_of_neg _ (by simpa using hek)]
    exact ih h'

/-- Enqueueing a present key records the earlier of old and new time. -/
lemma findNB_addAfterEntry_some {k : ObjectKey} (t : Nat) :
    ∀ es : List (ObjectKey × Nat), ∀ u : Nat, findNB k es = some u →
      findNB k (addAfterEntry k t es) = some (min u t) := by
  intro es
  induction es with
  | nil => intro u h; simp [findNB] at h
  | cons e es ih =>
    intro u h
    by_cases hek : e.1 = k
    · rw [findNB, List.find?_cons_of_pos _ (by simp [hek])] at h
      simp at h
      simp [addAfterEntry, hek, findNB, List.find?_cons_of_pos, ← h]
    · rw [findNB, List.find?_cons_of_neg _ (by simpa using hek)] at h
      simp only [addAfterEntry, hek, if_false]
      rw [findNB, List.find?_cons_of_neg _ (by simpa using hek)]
      exact ih u h

/-- Counting entries distributes over append. -/
lemma countKey_append (k : ObjectKey) (l1 l2 : List (ObjectKey × Nat)) :
    countKey k (l1 ++ l2) = countKey k l1 + countKey k l2 :=
  List.countP_append _ _ _

/-- A key has count zero exactly when it has no entry. -/
lemma countKey_eq_zero {k : ObjectKey} {es : List (ObjectKey × Nat)} :
    countKey k es = 0 ↔ k ∉ es.map Prod.fst := by
  simp only [countKey, List.countP_eq_zero, decide_eq_true_eq, List.mem_map, not_exists]
  constructor
  · intro h a hc
    exact h a hc.1 hc.2
  · intro h a ha hk
    exact h a ⟨ha, hk⟩

/-- Enqueueing one key does not change the count of another. -/
lemma countKey_addAfterEntry_ne {k2 k : ObjectKey} (h : k2 ≠ k) (t : Nat) :
    ∀ es : List (ObjectKey × Nat), countKey k2 (addAfterEntry k t es) = countKey k2 es := by
  intro es
  induction es with
  | nil => simp [addAfterEntry, countKey, Ne.symm h]
  | cons e es ih =>
    by_cases hek : e.1 = k
    · simp [addAfterEntry, hek, countKey, List.countP_cons]
    · simp only [addAfterEntry, hek, if_false]
      rw [countKey, List.countP_cons, countKey, List.countP_cons]
      rw [← countKey, ← countKey, ih]

/-- Enqueueing an absent key creates exactly one entry for it. -/
lemma countKey_addAfterEntry_zero {k : ObjectKey} {es : List (ObjectKey × Nat)}
    (h : countKey k es = 0) (t : Nat) :
    countKey k (addAfterEntry k t es) = 1 := by
  rw [addAfterEntry_of_not_mem k t es (countKey_eq_zero.mp h), countKey_append, h]
  simp [countKey]

/-- A present key has positive count. -/
lemma countKey_pos_of_mem {e : ObjectKey × Nat} {es : List (ObjectKey × Nat)}
    {k : ObjectKey} (he : e ∈ es) (hk : e.1 = k) : 1 ≤ countKey k es := by
  rw [countKey]
  exact List.countP_pos_iff.mpr ⟨e, he, by simp [hk]⟩

/-- Removing a key's entries leaves it with count zero. -/
lemma countKey_filter_self (k : ObjectKey) (es : List (ObjectKey × Nat)) :
    countKey k (es.filter (fun x => decide (x.1 ≠ k))) = 0 := by
  rw [countKey, List.countP_eq_zero]
  intro a ha
  have h2 := (List.mem_filter.mp ha).2
  simp at h2 ⊢
  exact h2

/-- Removing one key's entries does not change another key's count. -/
lemma countKey_filter_ne {x k : ObjectKey} (h : x ≠ k) :
    ∀ es : List (ObjectKey × Nat),
      countKey k (es.filter (fun e => decide (e.1 ≠ x))) = countKey k es := by
  intro es
  induction es with
  | nil => rfl
  | cons e es ih =>
    by_cases hex : e.1 = x
    · rw [List.filter_cons_of_neg (by simp [hex]), ih]
      rw [countKey, countKey, List.countP_cons]
      simp [hex, h]
    · rw [List.filter_cons_of_pos (by simpa using hex)]
      rw [countKey, List.countP_cons, countKey, List.countP_cons, ← countKey, ← countKey, ih]

/-- The earliest pick is one of the entries. -/
lemma pickEarliest_mem :
    ∀ {es : List (ObjectKey × Nat)} {e : ObjectKey × Nat},
      pickEarliest es = some e → e ∈ es := by
  intro es
  induction es with
  | nil => intro e h; simp [pickEarliest] at h
  | cons a es ih =>
    intro e h
    rw [pickEarliest] at h
    split at h
    · have ha : a = e := by simpa using h
      rw [← ha]
      exact List.mem_cons_self a es
    · rename_i b hpe
      split at h
      · have hb : b = e := by simpa using h
        rw [← hb]
        exact List.mem_cons_of_mem a (ih hpe)
      · have ha : a = e := by simpa using h
        rw [← ha]
        exact List.mem_cons_self a es

/-- Shape of a successful `Get()`: the key was not in flight, had a live
entry, and the post-state removes the entry while marking the key in
flight. -/
lemma get_eq_some {s : WQState} {now : Nat} {k : ObjectKey} {s' : WQState}
    (h : s.get now = (some k, s')) :
    k ∉ s.inflight ∧ k ∈ s.entries.map Prod.fst ∧
      s' = ⟨s.entries.filter (fun x => decide (x.1 ≠ k)), k :: s.inflight, s.dirty⟩ := by
  rw [WQState.get] at h
  cases hpe : pickEarliest (dueEntries s now) with
  | none => rw [hpe] at h; simp at h
  | some e =>
    rw [hpe] at h
    have hmem := pickEarliest_mem hpe
    rw [dueEntries] at hmem
    obtain ⟨hes, hcond⟩ := List.mem_filter.mp hmem
    rw [Bool.and_eq_true] at hcond
    have hni : e.1 ∉ s.inflight := by
      have := hcond.2
      simp at this
      exact this
    have h1 : e.1 = k := by
      have := congrArg Prod.fst h
      simpa using this
    have h2 : s' = ⟨s.entries.filter (fun x => decide (x.1 ≠ e.1)), e.1 :: s.inflight, s.dirty⟩ := by
      have := congrArg Prod.snd h
      exact this.symm
    subst h1
    exact ⟨hni, List.mem_map.mpr ⟨e, hes, rfl⟩, h2⟩

/-- A key delivered by `Get()` was not in flight. -/
lemma get_fst_not_inflight {s : WQState} {now : Nat} {k : ObjectKey}
    (h : (s.get now).1 = some k) : k ∉ s.inflight := by
  rcases hg : s.get now with ⟨a, s'⟩
  rw [hg] at h
  subst h
  exact (get_eq_some hg).1

/-- `AddAfter` never changes the in-flight set. -/
lemma addAfter_inflight (s : WQState) (now : Nat) (k : ObjectKey) (d : Nat) :
    (s.addAfter now k d).inflight = s.inflight := by
  unfold WQState.addAfter
  split <;> rfl

/-- `AddAfter` of an in-flight key leaves the entries alone. -/
lemma addAfter_entries_inflight {s : WQState} {k : ObjectKey} (h : k ∈ s.inflight)
    (now d : Nat) : (s.addAfter now k d).entries = s.entries := by
  unfold WQState.addAfter
  rw [if_pos h]

/-- `AddAfter` of a non-in-flight key merges into the entry list. -/
lemma addAfter_entries_not_inflight {s : WQState} {k : ObjectKey} (h : k ∉ s.inflight)
    (now d : Nat) : (s.addAfter now k d).entries = addAfterEntry k (now + d) s.entries := by
  unfold WQState.addAfter
  rw [if_neg h]

/-- `AddAfter` of a non-in-flight key leaves the dirty set alone. -/
lemma addAfter_dirty_not_inflight {s : WQState} {k : ObjectKey} (h : k ∉ s.inflight)
    (now d : Nat) : (s.addAfter now k d).dirty = s.dirty := by
  unfold WQState.addAfter
  rw [if_neg h]

/-- `AddAfter` of an in-flight key only marks the dirty flag. -/
lemma addAfter_dirty_inflight {s : WQState} {k : ObjectKey} (h : k ∈ s.inflight)
    (now d : Nat) :
    (s.addAfter now k d).dirty = if k ∈ s.dirty then s.dirty else s.dirty ++ [k] := by
  unfold WQState.addAfter
  rw [if_pos h]

/-- A key never survives filtering itself out. -/
lemma not_mem_filter_self (k : ObjectKey) (l : List ObjectKey) :
    k ∉ l.filter (fun x => decide (x ≠ k)) := by
  intro hmem
  have := (List.mem_filter.mp hmem).2
  simp at this

/-- Filtering out another key keeps membership. -/
lemma mem_filter_of_ne {k x : ObjectKey} (h : k ≠ x) {l : List ObjectKey}
    (hmem : k ∈ l) : k ∈ l.filter (fun y => decide (y ≠ x)) :=
  List.mem_filter.mpr ⟨hmem, by simpa using h⟩

/-- The invariant is preserved by `AddAfter` (hence by `Add`). -/
lemma inv_addAfter {s : WQState} (h : WQInv s) (now : Nat) (k : ObjectKey) (d : Nat) :
    WQInv (s.addAfter now k d) := by
  by_cases hk : k ∈ s.inflight
  · refine ⟨?_, ?_, ?_, ?_⟩
    · rw [addAfter_entries_inflight hk]
      exact h.nodupKeys
    · rw [addAfter_inflight]
      exact h.flightNodup
    · intro k2 hk2
      rw [addAfter_dirty_inflight hk] at hk2
      rw [addAfter_inflight]
      split at hk2
      · exact h.dirtyFlight k2 hk2
      · rcases List.mem_append.mp hk2 with h1 | h1
        · exact h.dirtyFlight k2 h1
        · have : k2 = k := by simpa using h1
          rw [this]
          exact hk
    · intro k2 hk2
      rw [addAfter_inflight] at hk2
      rw [addAfter_entries_inflight hk]
      exact h.flightEntries k2 hk2
  · refine ⟨?_, ?_, ?_, ?_⟩
    · rw [addAfter_entries_not_inflight hk]
      by_cases hmem : k ∈ s.entries.map Prod.fst
      · rw [addAfterEntry_map_fst_of_mem k (now + d) s.entries hmem]
        exact h.nodupKeys
      · rw [addAfterEntry_of_not_mem k (now + d) s.entries hmem, List.map_append]
        rw [List.nodup_append]
        refine ⟨h.nodupKeys, by simp, ?_⟩
        intro a ha hb
        have : a = k := by simpa using hb
        rw [this] at ha
        exact hmem ha
    · rw [addAfter_inflight]
      exact h.flightNodup
    · intro k2 hk2
      rw [addAfter_dirty_not_inflight hk] at hk2
      rw [addAfter_inflight]
      exact h.dirtyFlight k2 hk2
    · intro k2 hk2
      rw [addAfter_inflight] at hk2
      rw [addAfter_entries_not_inflight hk]
      have hne : k2 ≠ k := fun he => hk (he ▸ hk2)
      rw [countKey_addAfterEntry_ne hne (now + d) s.entries]
      exact h.flightEntries k2 hk2

/-- The invariant is preserved by `Get()`. -/
lemma inv_get {s : WQState} (h : WQInv s) (now : Nat) : WQInv ((s.get now).2) := by
  rcases hg : s.get now with ⟨r, s'⟩
  cases r with
  | none =>
    have : s' = s := by
      rw [WQState.get] at hg
      cases hpe : pickEarliest (dueEntries s now) with
      | none => rw [hpe] at hg; simpa using hg.symm
      | some e => rw [hpe] at hg; simp at hg
    rw [this]
    exact h
  | some k =>
    obtain ⟨hni, hmem, hs'⟩ := get_eq_some hg
    rw [hs']
    refine ⟨?_, ?_, ?_, ?_⟩
    · exact (List.filter_sublist s.entries).map Prod.fst |>.nodup h.nodupKeys
    · exact List.Nodup.cons hni h.flightNodup
    · intro k2 hk2
      exact List.mem_cons_of_mem k (h.dirtyFlight k2 hk2)
    · intro k2 hk2
      rcases List.mem_cons.mp hk2 with h1 | h1
      · rw [h1]
        exact countKey_filter_self k s.entries
      · rw [countKey, List.countP_eq_zero]
        intro a ha
        have haes := (List.mem_filter.mp ha).1
        have h0 := h.flightEntries k2 h1
        rw [countKey, List.countP_eq_zero] at h0
        exact h0 a haes

/-- The invariant is preserved by `Done`. -/
lemma inv_done {s : WQState} (h : WQInv s) (now : Nat) (k : ObjectKey) :
    WQInv (s.done now k) := by
  unfold WQState.done
  have hbase : WQInv ⟨s.entries, s.inflight.filter (fun x => decide (x ≠ k)),
      s.dirty.filter (fun x => decide (x ≠ k))⟩ := by
    refine ⟨h.nodupKeys, List.Nodup.filter _ h.flightNodup, ?_, ?_⟩
    · intro k2 hk2
      obtain ⟨hd, hne⟩ := List.mem_filter.mp hk2
      exact List.mem_filter.mpr ⟨h.dirtyFlight k2 hd, hne⟩
    · intro k2 hk2
      exact h.flightEntries k2 (List.mem_filter.mp hk2).1
  by_cases hd : k ∈ s.dirty
  · rw [if_pos hd]
    exact inv_addAfter hbase now k 0
  · rw [if_neg hd]
    refine ⟨h.nodupKeys, List.Nodup.filter _ h.flightNodup, ?_, ?_⟩
    · intro k2 hk2
      have hne : k2 ≠ k := fun he => hd (he ▸ hk2)
      exact mem_filter_of_ne hne (h.dirtyFlight k2 hk2)
    · intro k2 hk2
      exact h.flightEntries k2 (List.mem_filter.mp hk2).1

/-- The invariant is preserved by every operation. -/
lemma inv_step {s : WQState} (h : WQInv s) (op : WQOp) : WQInv (s.step op) := by
  cases op with
  | add now k => exact inv_addAfter h now k 0
  | addAfter now k d => exact inv_addAfter h now k d
  | get now => exact inv_get h now
  | done now k => exact inv_done h now k

/-- The invariant is preserved along every trace. -/
lemma inv_run : ∀ (ops : List WQOp) {s : WQState}, WQInv s → WQInv (s.run ops) := by
  intro ops
  induction ops with
  | nil => intro s h; exact h
  | cons op ops ih =>
    intro s h
    exact ih (inv_step h op)

/-- The empty queue satisfies the invariant. -/
lemma inv_empty : WQInv WQState.empty := by
  refine ⟨?_, ?_, ?_, ?_⟩ <;> simp [WQState.empty, countKey]

/-- Every reachable queue state satisfies the invariant. -/
lemma reachable_inv {s : WQState} (h : Reachable s) : WQInv s := by
  obtain ⟨ops, hops⟩ := h
  rw [← hops]
  exact inv_run ops inv_empty

/-- An in-flight key stays in flight across any operation that is not a
`Done` for it. -/
lemma step_keeps_inflight {s : WQState} {k : ObjectKey} {op : WQOp}
    (hk : k ∈ s.inflight) (hop : op.isDoneFor k = false) :
    k ∈ (s.step op).inflight := by
  cases op with
  | add now k2 =>
    show k ∈ (s.addAfter now k2 0).inflight
    rw [addAfter_inflight]
    exact hk
  | addAfter now k2 d =>
    show k ∈ (s.addAfter now k2 d).inflight
    rw [addAfter_inflight]
    exact hk
  | get now =>
    show k ∈ (s.get now).2.inflight
    rcases hg : s.get now with ⟨r, s'⟩
    cases r with
    | none =>
      have : s' = s := by
        rw [WQState.get] at hg
        cases hpe : pickEarliest (dueEntries s now) with
        | none => rw [hpe] at hg; simpa using hg.symm
        | some e => rw [hpe] at hg; simp at hg
      simp [this, hk]
    | some k2 =>
      obtain ⟨-, -, hs'⟩ := get_eq_some hg
      simp [hs']
      exact Or.inr hk
  | done now k2 =>
    have hne : k2 ≠ k := by simpa [WQOp.isDoneFor] using hop
    show k ∈ (s.done now k2).inflight
    unfold WQState.done
    have hflight : k ∈ s.inflight.filter (fun x => decide (x ≠ k2)) :=
      mem_filter_of_ne (Ne.symm hne) hk
    by_cases hd : k2 ∈ s.dirty
    · rw [if_pos hd]
      rw [addAfter_inflight]
      exact hflight
    · rw [if_neg hd]
      exact hflight

/-- A `Get()` never delivers a key that is currently in flight. -/
lemma step_delivered_ne {s : WQState} {k : ObjectKey} {op : WQOp}
    (hk : k ∈ s.inflight) {x : ObjectKey} (hx : delivered s op = some x) : x ≠ k := by
  cases op with
  | add now k2 => simp [delivered] at hx
  | addAfter now k2 d => simp [delivered] at hx
  | done now k2 => simp [delivered] at hx
  | get now =>
    have hni : x ∉ s.inflight := get_fst_not_inflight hx
    intro he
    rw [he] at hni
    exact hni hk

/-- While a key is in flight, no suffix trace free of `Done` for it ever
delivers it, and it stays in flight. -/
lemma inflight_persists (k : ObjectKey) :
    ∀ (ops : List WQOp) (s : WQState), k ∈ s.inflight →
      (∀ op ∈ ops, op.isDoneFor k = false) →
      k ∈ (s.run ops).inflight ∧ k ∉ deliveries s ops := by
  intro ops
  induction ops with
  | nil =>
    intro s hk _
    exact ⟨hk, by simp [deliveries]⟩
  | cons op ops ih =>
    intro s hk hall
    have hop := hall op (List.mem_cons_self op ops)
    have hstep := step_keeps_inflight hk hop
    have hrest := ih (s.step op) hstep (fun o ho => hall o (List.mem_cons_of_mem op ho))
    refine ⟨hrest.1, ?_⟩
    intro hmem
    rw [deliveries] at hmem
    rcases List.mem_append.mp hmem with h1 | h1
    · have : delivered s op = some k := Option.mem_toList.mp h1
      exact step_delivered_ne hk this rfl
    · exact hrest.2 h1

/-- C5: for any trace reaching a queue state, once a `Get()` delivers key
`k`, no further `Get()` delivers `k` again before a matching `Done(k)`:
the queue never exposes the same key to two concurrent `Get()` callers. -/
theorem wq_no_concurrent_get (ops1 : List WQOp) (now : Nat) (k : ObjectKey)
    (s' : WQState) (ops2 : List WQOp)
    (hget : (WQState.run WQState.empty ops1).get now = (some k, s'))
    (hnd : ∀ op ∈ ops2, op.isDoneFor k = false) :
    k ∉ deliveries s' ops2 := by
  obtain ⟨-, -, hs'⟩ := get_eq_some hget
  have hk : k ∈ s'.inflight := by
    rw [hs']
    exact List.mem_cons_self k _
  exact (inflight_persists k ops2 s' hk hnd).2

/-- Witness for C5: after `Add(kA); Add(kB)`, a `Get()` delivers `kA`;
along the continuation `Get(); Add(kA); Get()` (no `Done(kA)`), the only
delivery is `kB`, never `kA` again. -/
theorem wq_no_concurrent_get_witness :
    (WQState.run WQState.empty [WQOp.add 0 kA, WQOp.add 0 kB]).get 0 =
        (some kA, ⟨[(kB, 0)], [kA], []⟩) ∧
      (∀ op ∈ [WQOp.get 0, WQOp.add 1 kA, WQOp.get 1], op.isDoneFor kA = false) ∧
      kA ∉ deliveries ⟨[(kB, 0)], [kA], []⟩ [WQOp.get 0, WQOp.add 1 kA, WQOp.get 1] :=
  ⟨by decide, by decide,
    wq_no_concurrent_get [WQOp.add 0 kA, WQOp.add 0 kB] 0 kA ⟨[(kB, 0)], [kA], []⟩
      [WQOp.get 0, WQOp.add 1 kA, WQOp.get 1] (by decide) (by decide)⟩

/-- C6: on every reachable queue state the entry keys are duplicate-free
(at most one live entry per key), and enqueueing a key that already has an
entry merges into it — the key set is unchanged (idempotent, no duplicate
created) and the recorded `not_before` becomes the earlier of the old and
the new time. -/
theorem wq_one_live_entry (s : WQState) (hreach : Reachable s) (now : Nat)
    (k : ObjectKey) (d t : Nat) (hk : k ∉ s.inflight) (ht : lookupNB s k = some t) :
    (s.entries.map Prod.fst).Nodup ∧
      (s.addAfter now k d).entries.map Prod.fst = s.entries.map Prod.fst ∧
      lookupNB (s.addAfter now k d) k = some (min t (now + d)) := by
  have hInv := reachable_inv hreach
  refine ⟨hInv.nodupKeys, ?_, ?_⟩
  · rw [addAfter_entries_not_inflight hk]
    exact addAfterEntry_map_fst_of_mem k (now + d) s.entries (findNB_some_mem ht)
  · rw [lookupNB, addAfter_entries_not_inflight hk]
    exact findNB_addAfterEntry_some (now + d) s.entries t ht

/-- Witness for C6: the state reached by `Add(kA)` at time 3, re-enqueued
with `AddAfter(kA, 5)` at time 10, keeps one entry and the earlier time. -/
theorem wq_one_live_entry_witness :
    Reachable (WQState.run WQState.empty [WQOp.add 3 kA]) ∧
      kA ∉ (WQState.run WQState.empty [WQOp.add 3 kA]).inflight ∧
      lookupNB (WQState.run WQState.empty [WQOp.add 3 kA]) kA = some 3 ∧
      (((WQState.run WQState.empty [WQOp.add 3 kA]).entries.map Prod.fst).Nodup ∧
        ((WQState.run WQState.empty [WQOp.add 3 kA]).addAfter 10 kA 5).entries.map Prod.fst =
          (WQState.run WQState.empty [WQOp.add 3 kA]).entries.map Prod.fst ∧
        lookupNB ((WQState.run WQState.empty [WQOp.add 3 kA]).addAfter 10 kA 5) kA =
          some (min 3 (10 + 5))) :=
  ⟨⟨[WQOp.add 3 kA], rfl⟩, by decide, by decide,
    wq_one_live_entry (WQState.run WQState.empty [WQOp.add 3 kA])
      ⟨[WQOp.add 3 kA], rfl⟩ 10 kA 5 3 (by decide) (by decide)⟩

/-- C7: `AddAfter(k, d1)` then `AddAfter(k, d2)` with `d2 < d1` records
`not_before = now + d2` — the earlier of the two scheduled times wins —
and an entry whose existing `not_before` is already no later than the
newly requested time keeps its earlier time: scheduled work is never
delayed. -/
theorem wq_addafter_earlier_wins (s : WQState) (now : Nat) (k : ObjectKey)
    (d1 d2 : Nat) (s2 : WQState) (u e : Nat)
    (h1 : k ∉ s.inflight) (h2 : lookupNB s k = none) (h3 : d2 < d1)
    (h4 : k ∉ s2.inflight) (h5 : lookupNB s2 k = some u) (h6 : u ≤ now + e) :
    lookupNB ((s.addAfter now k d1).addAfter now k d2) k = some (now + d2) ∧
      lookupNB (s2.addAfter now k e) k = some u := by
  constructor
  · have hni1 : k ∉ (s.addAfter now k d1).inflight := by
      rw [addAfter_inflight]
      exact h1
    rw [lookupNB, addAfter_entries_not_inflight hni1, addAfter_entries_not_inflight h1]
    have hfst : findNB k (addAfterEntry k (now + d1) s.entries) = some (now + d1) :=
      findNB_addAfterEntry_none (now + d1) s.entries h2
    rw [findNB_addAfterEntry_some (now + d2) _ _ hfst]
    rw [min_eq_right (Nat.add_le_add_left (Nat.le_of_lt h3) now)]
  · rw [lookupNB, addAfter_entries_not_inflight h4]
    rw [findNB_addAfterEntry_some (now + e) _ _ h5]
    rw [min_eq_left h6]

/-- Witness for C7: from the empty queue, `AddAfter(kA, 2)` then
`AddAfter(kA, 1)` at time 0 records time 1; a queue holding `kA` at time 5
keeps time 5 under `AddAfter(kA, 7)`. -/
theorem wq_addafter_earlier_wins_witness :
    kA ∉ WQState.empty.inflight ∧
      lookupNB WQState.empty kA = none ∧
      (1 : Nat) < 2 ∧
      kA ∉ (⟨[(kA, 5)], [], []⟩ : WQState).inflight ∧
      lookupNB ⟨[(kA, 5)], [], []⟩ kA = some 5 ∧
      (5 : Nat) ≤ 0 + 7 ∧
      (lookupNB ((WQState.empty.addAfter 0 kA 2).addAfter 0 kA 1) kA = some (0 + 1) ∧
        lookupNB ((⟨[(kA, 5)], [], []⟩ : WQState).addAfter 0 kA 7) kA = some 5) :=
  ⟨by decide, by decide, by decide, by decide, by decide, by decide,
    wq_addafter_earlier_wins WQState.empty 0 kA 2 1 ⟨[(kA, 5)], [], []⟩ 5 7
      (by decide) (by decide) (by decide) (by decide) (by decide) (by decide)⟩

/-- A `Get()` that pops nothing leaves the state unchanged. -/
lemma get_none_state {s : WQState} {now : Nat} (h : (s.get now).1 = none) :
    (s.get now).2 = s := by
  rw [WQState.get] at h ⊢
  cases hpe : pickEarliest (dueEntries s now) with
  | none => rfl
  | some e => rw [hpe] at h; simp at h

/-- The dirty bit of `k` is unchanged when a different key is filtered
out of the dirty set. -/
lemma dirtyBit_filter_ne {k k2 : ObjectKey} (h : k2 ≠ k) (l : List ObjectKey) :
    (if k ∈ l.filter (fun x => decide (x ≠ k2)) then 1 else 0) =
      (if k ∈ l then 1 else 0 : Nat) := by
  by_cases hkd : k ∈ l
  · rw [if_pos (mem_filter_of_ne (Ne.symm h) hkd), if_pos hkd]
  · rw [if_neg (fun hc => hkd (List.mem_filter.mp hc).1), if_neg hkd]

/-- One step that is not an enqueue of `k` never increases the pending
potential of `k`, counting a delivery of `k` as one unit. -/
lemma step_budget {s : WQState} (hInv : WQInv s) {op : WQOp} {k : ObjectKey}
    (hop : op.isAddFor k = false) :
    (delivered s op).toList.countP (fun x => decide (x = k)) + phiKey k (s.step op) ≤
      phiKey k s := by
  cases op with
  | add now k2 =>
    have hne : k2 ≠ k := by simpa [WQOp.isAddFor] using hop
    have hphi : phiKey k (s.addAfter now k2 0) = phiKey k s := by
      by_cases hk2 : k2 ∈ s.inflight
      · rw [phiKey, phiKey, addAfter_entries_inflight hk2, dirtyBit, dirtyBit,
          addAfter_dirty_inflight hk2]
        by_cases hkd : k ∈ s.dirty
        · have hmem : k ∈ (if k2 ∈ s.dirty then s.dirty else s.dirty ++ [k2]) := by
            split <;> simp [hkd]
          rw [if_pos hmem, if_pos hkd]
        · have hmem : k ∉ (if k2 ∈ s.dirty then s.dirty else s.dirty ++ [k2]) := by
            split <;> simp [hkd, Ne.symm hne]
          rw [if_neg hmem, if_neg hkd]
      · rw [phiKey, phiKey, addAfter_entries_not_inflight hk2,
          countKey_addAfterEntry_ne (Ne.symm hne) (now + 0) s.entries, dirtyBit, dirtyBit,
          addAfter_dirty_not_inflight hk2]
    show (delivered s (WQOp.add now k2)).toList.countP (fun x => decide (x = k)) +
        phiKey k (s.addAfter now k2 0) ≤ phiKey k s
    simp [delivered, hphi]
  | addAfter now k2 d =>
    have hne : k2 ≠ k := by simpa [WQOp.isAddFor] using hop
    have hphi : phiKey k (s.addAfter now k2 d) = phiKey k s := by
      by_cases hk2 : k2 ∈ s.inflight
      · rw [phiKey, phiKey, addAfter_entries_inflight hk2, dirtyBit, dirtyBit,
          addAfter_dirty_inflight hk2]
        by_cases hkd : k ∈ s.dirty
        · have hmem : k ∈ (if k2 ∈ s.dirty then s.dirty else s.dirty ++ [k2]) := by
            split <;> simp [hkd]
          rw [if_pos hmem, if_pos hkd]
        · have hmem : k ∉ (if k2 ∈ s.dirty then s.dirty else s.dirty ++ [k2]) := by
            split <;> simp [hkd, Ne.symm hne]
          rw [if_neg hmem, if_neg hkd]
      · rw [phiKey, phiKey, addAfter_entries_not_inflight hk2,
          countKey_addAfterEntry_ne (Ne.symm hne) (now + d) s.entries, dirtyBit, dirtyBit,
          addAfter_dirty_not_inflight hk2]
    show (delivered s (WQOp.addAfter now k2 d)).toList.countP (fun x => decide (x = k)) +
        phiKey k (s.addAfter now k2 d) ≤ phiKey k s
    simp [delivered, hphi]
  | get now =>
    show ((s.get now).1).toList.countP (fun x => decide (x = k)) +
        phiKey k ((s.get now).2) ≤ phiKey k s
    rcases hg : s.get now with ⟨r, s'⟩
    cases r with
    | none =>
      have hs : (s.get now).2 = s := get_none_state (by rw [hg])
      rw [hg] at hs
      have hs0 : s' = s := hs
      simp [hs0]
    | some x =>
      obtain ⟨-, hmem, hs'⟩ := get_eq_some hg
      by_cases hxk : x = k
      · subst hxk
        obtain ⟨e, he, hefst⟩ := List.mem_map.mp hmem
        have hpos : 1 ≤ countKey x s.entries := countKey_pos_of_mem he hefst
        have hc0 : countKey x s'.entries = 0 := by
          rw [hs']
          exact countKey_filter_self x s.entries
        have hbit : dirtyBit x s' = dirtyBit x s := by
          rw [hs', dirtyBit, dirtyBit]
        rw [phiKey, phiKey, hc0, hbit]
        simp
        omega
      · have hc : countKey k s'.entries = countKey k s.entries := by
          rw [hs']
          exact countKey_filter_ne hxk s.entries
        have hbit : dirtyBit k s' = dirtyBit k s := by
          rw [hs', dirtyBit, dirtyBit]
        rw [phiKey, phiKey, hc, hbit]
        simp [hxk]
  | done now k2 =>
    show (delivered s (WQOp.done now k2)).toList.countP (fun x => decide (x = k)) +
        phiKey k (s.done now k2) ≤ phiKey k s
    simp only [delivered, Option.toList_none, List.countP_nil, Nat.zero_add]
    unfold WQState.done
    by_cases hd : k2 ∈ s.dirty
    · rw [if_pos hd]
      have hnif2 : k2 ∉ (⟨s.entries, s.inflight.filter (fun x => decide (x ≠ k2)),
          s.dirty.filter (fun x => decide (x ≠ k2))⟩ : WQState).inflight :=
        not_mem_filter_self k2 _
      rw [show (⟨s.entries, s.inflight.filter (fun x => decide (x ≠ k2)),
          s.dirty.filter (fun x => decide (x ≠ k2))⟩ : WQState).addAfter now k2 0 =
          ⟨addAfterEntry k2 (now + 0) s.entries,
            s.inflight.filter (fun x => decide (x ≠ k2)),
            s.dirty.filter (fun x => decide (x ≠ k2))⟩ from by
        unfold WQState.addAfter
        rw [if_neg hnif2]]
      by_cases hk2k : k2 = k
      · subst hk2k
        have hflight : k2 ∈ s.inflight := hInv.dirtyFlight k2 hd
        have hc0 : countKey k2 s.entries = 0 := hInv.flightEntries k2 hflight
        have h1 : countKey k2 (addAfterEntry k2 (now + 0) s.entries) = 1 :=
          countKey_addAfterEntry_zero hc0 (now + 0)
        simp only [phiKey, dirtyBit, h1]
        rw [if_neg (not_mem_filter_self k2 _), if_pos hd, hc0]
      · have h1 : countKey k (addAfterEntry k2 (now + 0) s.entries) = countKey k s.entries :=
          countKey_addAfterEntry_ne (Ne.symm hk2k) (now + 0) s.entries
        simp only [phiKey, dirtyBit, h1]
        rw [dirtyBit_filter_ne hk2k s.dirty]
    · rw [if_neg hd]
      simp only [phiKey, dirtyBit]
      exact Nat.le_refl _

/-- Summed over a trace free of enqueues of `k`, the deliveries of `k`
plus the remaining potential never exceed the starting potential. -/
lemma run_budget (k : ObjectKey) :
    ∀ (ops : List WQOp) (s : WQState), WQInv s →
      (∀ op ∈ ops, op.isAddFor k = false) →
      (deliveries s ops).countP (fun x => decide (x = k)) + phiKey k (s.run ops) ≤
        phiKey k s := by
  intro ops
  induction ops with
  | nil =>
    intro s _ _
    simp [deliveries, WQState.run]
  | cons op ops ih =>
    intro s hInv hall
    have h1 := step_budget hInv (hall op (List.mem_cons_self op ops))
    have h2 := ih (s.step op) (inv_step hInv op)
      (fun o ho => hall o (List.mem_cons_of_mem op ho))
    show (deliveries s (op :: ops)).countP (fun x => decide (x = k)) +
        phiKey k ((s.step op).run ops) ≤ phiKey k s
    rw [deliveries, List.countP_append]
    omega

/-- An enqueue of an in-flight key only sets its dirty flag. -/
lemma step_addFor {s : WQState} {k : ObjectKey} {op : WQOp}
    (hk : k ∈ s.inflight) (hop : op.isAddFor k = true) :
    (s.step op).entries = s.entries ∧ (s.step op).inflight = s.inflight ∧
      k ∈ (s.step op).dirty := by
  cases op with
  | add now k2 =>
    have hk2 : k2 = k := by simpa [WQOp.isAddFor] using hop
    subst hk2
    refine ⟨addAfter_entries_inflight hk now 0, addAfter_inflight s now k2 0, ?_⟩
    show k2 ∈ (s.addAfter now k2 0).dirty
    rw [addAfter_dirty_inflight hk]
    by_cases hkd : k2 ∈ s.dirty
    · simp [hkd]
    · simp [hkd]
  | addAfter now k2 d =>
    have hk2 : k2 = k := by simpa [WQOp.isAddFor] using hop
    subst hk2
    refine ⟨addAfter_entries_inflight hk now d, addAfter_inflight s now k2 d, ?_⟩
    show k2 ∈ (s.addAfter now k2 d).dirty
    rw [addAfter_dirty_inflight hk]
    by_cases hkd : k2 ∈ s.dirty
    · simp [hkd]
    · simp [hkd]
  | get now => simp [WQOp.isAddFor] at hop
  | done now k2 => simp [WQOp.isAddFor] at hop

/-- Any number of enqueues of an in-flight key leaves entries and flight
unchanged and records the dirty flag. -/
lemma run_addsFor (k : ObjectKey) :
    ∀ (adds : List WQOp) (s : WQState), k ∈ s.inflight →
      (∀ op ∈ adds, op.isAddFor k = true) →
      (s.run adds).entries = s.entries ∧ (s.run adds).inflight = s.inflight ∧
        (k ∈ s.dirty → k ∈ (s.run adds).dirty) ∧
        (adds ≠ [] → k ∈ (s.run adds).dirty) := by
  intro adds
  induction adds with
  | nil =>
    intro s _ _
    exact ⟨rfl, rfl, fun h => h, fun h => absurd rfl h⟩
  | cons op adds ih =>
    intro s hk hall
    have hop := hall op (List.mem_cons_self op adds)
    obtain ⟨he1, hf1, hd1⟩ := step_addFor hk hop
    have hk1 : k ∈ (s.step op).inflight := by rw [hf1]; exact hk
    obtain ⟨he2, hf2, hd2, -⟩ :=
      ih (s.step op) hk1 (fun o ho => hall o (List.mem_cons_of_mem op ho))
    exact ⟨he2.trans he1, hf2.trans hf1, fun _ => hd2 hd1, fun _ => hd2 hd1⟩

/-- C8: if key `k` is in flight on a reachable state and is re-added any
positive number of times during the flight, then after `Done(k)` at time
`now` the key is queued exactly once with `not_before = now` (the re-add
is never dropped), it is no longer in flight, and any continuation free of
further enqueues of `k` delivers `k` to `Get()` callers at most once —
exactly one subsequent delivery, never a duplicate. -/
theorem wq_readd_in_flight (s : WQState) (hreach : Reachable s) (k : ObjectKey)
    (hin : k ∈ s.inflight) (adds : List WQOp) (hne : adds ≠ [])
    (hadds : ∀ op ∈ adds, op.isAddFor k = true) (now : Nat) (ops2 : List WQOp)
    (hops2 : ∀ op ∈ ops2, op.isAddFor k = false) :
    lookupNB ((s.run adds).done now k) k = some now ∧
      countKey k ((s.run adds).done now k).entries = 1 ∧
      k ∉ ((s.run adds).done now k).inflight ∧
      (deliveries ((s.run adds).done now k) ops2).countP (fun x => decide (x = k)) ≤ 1 := by
  have hInv : WQInv s := reachable_inv hreach
  obtain ⟨he, hf, -, hdirty⟩ := run_addsFor k adds s hin hadds
  have hdk : k ∈ (s.run adds).dirty := hdirty hne
  have hcnt0 : countKey k (s.run adds).entries = 0 := by
    rw [he]
    exact hInv.flightEntries k hin
  have hnif : k ∉ (s.run adds).inflight.filter (fun x => decide (x ≠ k)) :=
    not_mem_filter_self k _
  have hdone : (s.run adds).done now k =
      ⟨addAfterEntry k (now + 0) (s.run adds).entries,
        (s.run adds).inflight.filter (fun x => decide (x ≠ k)),
        (s.run adds).dirty.filter (fun x => decide (x ≠ k))⟩ := by
    unfold WQState.done
    rw [if_pos hdk]
    unfold WQState.addAfter
    rw [if_neg hnif]
  have hfind : findNB k (s.run adds).entries = none :=
    findNB_eq_none.mpr (countKey_eq_zero.mp hcnt0)
  refine ⟨?_, ?_, ?_, ?_⟩
  · rw [hdone, lookupNB]
    rw [findNB_addAfterEntry_none (now + 0) _ hfind, Nat.add_zero]
  · rw [hdone]
    exact countKey_addAfterEntry_zero hcnt0 (now + 0)
  · rw [hdone]
    exact hnif
  · have hInv3 : WQInv ((s.run adds).done now k) := inv_done (inv_run adds hInv) now k
    have hphi : phiKey k ((s.run adds).done now k) = 1 := by
      rw [hdone, phiKey]
      show countKey k (addAfterEntry k (now + 0) (s.run adds).entries) +
          dirtyBit k ⟨addAfterEntry k (now + 0) (s.run adds).entries,
            (s.run adds).inflight.filter (fun x => decide (x ≠ k)),
            (s.run adds).dirty.filter (fun x => decide (x ≠ k))⟩ = 1
      rw [countKey_addAfterEntry_zero hcnt0 (now + 0), dirtyBit,
        if_neg (not_mem_filter_self k _)]
    have hb := run_budget k ops2 ((s.run adds).done now k) hInv3 hops2
    omega

/-- Witness for C8: `kA` is taken in flight, re-added twice, and after
`Done` at time 3 the continuation `Get(3); Get(4)` delivers it exactly
once. -/
theorem wq_readd_in_flight_witness :
    Reachable (WQState.run WQState.empty [WQOp.add 0 kA, WQOp.get 0]) ∧
      kA ∈ (WQState.run WQState.empty [WQOp.add 0 kA, WQOp.get 0]).inflight ∧
      ([WQOp.add 1 kA, WQOp.add 2 kA] ≠ ([] : List WQOp)) ∧
      (∀ op ∈ [WQOp.add 1 kA, WQOp.add 2 kA], op.isAddFor kA = true) ∧
      (∀ op ∈ [WQOp.get 3, WQOp.get 4], op.isAddFor kA = false) ∧
      (lookupNB (((WQState.run WQState.empty [WQOp.add 0 kA, WQOp.get 0]).run
            [WQOp.add 1 kA, WQOp.add 2 kA]).done 3 kA) kA = some 3 ∧
        countKey kA (((WQState.run WQState.empty [WQOp.add 0 kA, WQOp.get 0]).run
            [WQOp.add 1 kA, WQOp.add 2 kA]).done 3 kA).entries = 1 ∧
        kA ∉ (((WQState.run WQState.empty [WQOp.add 0 kA, WQOp.get 0]).run
            [WQOp.add 1 kA, WQOp.add 2 kA]).done 3 kA).inflight ∧
        (deliveries (((WQState.run WQState.empty [WQOp.add 0 kA, WQOp.get 0]).run
            [WQOp.add 1 kA, WQOp.add 2 kA]).done 3 kA)
            [WQOp.get 3, WQOp.get 4]).countP (fun x => decide (x = kA)) ≤ 1) :=
  ⟨⟨[WQOp.add 0 kA, WQOp.get 0], rfl⟩, by decide, by decide, by decide, by decide,
    wq_readd_in_flight (WQState.run WQState.empty [WQOp.add 0 kA, WQOp.get 0])
      ⟨[WQOp.add 0 kA, WQOp.get 0], rfl⟩ kA (by decide)
      [WQOp.add 1 kA, WQOp.add 2 kA] (by decide) (by decide) 3
      [WQOp.get 3, WQOp.get 4] (by decide)⟩

/-- C1: the relation mapper drops the secondary object's namespace. For
the HPA `hpaProd`, which lives in namespace "prod" and targets Deployment
"web", the mapper emits a reference whose namespace is unset rather than
the secondary object's own namespace, because `ObjectRef::new_with` never
sets a namespace. -/
theorem mapper_namespace_dropped :
    mapper hpaProd = some { name := "web", nspace := none } ∧
      hpaProd.metadata.nspace = some "prod" :=
  ⟨rfl, rfl⟩

/-- C2: the error policy is the constant function that requeues after the
fixed short delay of five seconds; it inspects neither the object, nor the
error value, nor the context, and there is no attempt-count input at all,
so no exponential backoff. -/
theorem error_policy_fixed_delay :
    error_policy = fun _ _ _ => Action.requeue (Duration.from_secs 5) :=
  rfl

/-- C3: the `Error` enum has no variants, so it is uninhabited, and the
reconcile function never returns a failure value, making the error branch
(the invocation of the error policy) unreachable. -/
theorem error_uninhabited_reconcile_total :
    (∀ e : Error, False) ∧
      ∀ (obj : Deployment) (ctx : Unit) (e : Error),
        (reconcile obj ctx).2 ≠ Except.error e :=
  ⟨fun e => (nomatch e), fun _ _ e => (nomatch e)⟩

/-- C4: a secondary object without a spec (the only way the typed payload
can lack or truncate the cross-reference) makes the mapper evaluate to
`none`; the mapper is a total function into `Option`, so no failure is
ever propagated. -/
theorem mapper_no_spec_emits_nothing (obj : HorizontalPodAutoscaler)
    (h : obj.spec = none) : mapper obj = none := by
  simp [mapper, h]

/-- Witness for C4 at the concrete spec-less HPA. -/
theorem mapper_no_spec_emits_nothing_witness :
    hpaNoSpec.spec = none ∧ mapper hpaNoSpec = none :=
  ⟨rfl, mapper_no_spec_emits_nothing hpaNoSpec rfl⟩

/-- C9: the relation mapper is a pure, deterministic function of the event
payload: it reads only the `spec` part of the object, so any two payloads
with equal specs (in particular, equal payloads) map to equal results. -/
theorem mapper_pure_deterministic (o1 o2 : HorizontalPodAutoscaler)
    (h : o1.spec = o2.spec) : mapper o1 = mapper o2 := by
  simp [mapper, h]

/-- Witness for C9: two HPAs with different metadata but the same spec map
to the same result. -/
theorem mapper_pure_deterministic_witness :
    hpaProdRenamed.spec = hpaProd.spec ∧
      mapper hpaProdRenamed = mapper hpaProd :=
  ⟨rfl, mapper_pure_deterministic hpaProdRenamed hpaProd rfl⟩

/-- C10: for every Deployment and every context, the reconcile function
succeeds with exactly a requeue after 3600 seconds, and its result does
not depend on the object's contents. -/
theorem reconcile_requeue_hour (obj obj2 : Deployment) (ctx : Unit) :
    (reconcile obj ctx).2 = Except.ok (Action.requeue (Duration.from_secs 3600)) ∧
      (reconcile obj ctx).2 = (reconcile obj2 ctx).2 :=
  ⟨rfl, rfl⟩

end Ctrl
